import Mathlib

/-!
Shallow embedding of the shape/stride/indexing core of
`src/include/ndarray/ndarray_base.hpp` (class template `ndarray_base`).

Shapes and strides are `List Nat` (the C++ code uses dynamic sequences of an
unsigned `size_type`); the backing buffer is modelled by its element count,
which is all the geometry core ever manipulates (it only calls
`data().resize(count)`).  An out-of-range vector access — `.back()` or
`.front()` on an empty vector, which is undefined behavior in C++ — is
modelled by `none`.
-/

namespace Ndarray

/-- The `layout` enum of `ndarray_base.hpp`. -/
inductive layout where
  | row_major
  | column_major
deriving DecidableEq

/-- Modelled from the spec: `data_size` is declared in `ndindex.hpp`, which is
not among the sources; the spec fixes it as the total logical element count of
a shape ("buffer is resized to `product(newShape)`"). -/
def data_size (s : List Nat) : Nat := s.prod

/-- Modelled from the spec: `data_offset` is declared in `ndindex.hpp`, which
is not among the sources; the spec fixes it as the dot product
`Σ indices[i] * strides[i]`. -/
def data_offset (strides indices : List Nat) : Nat :=
  (List.zipWith (fun idx st => idx * st) indices strides).sum

/-- The strides written by the row-major branch of
`ndarray_base::reshape(shape, layout)`: `m_strides.back() = 1`, then for `i`
from `n-1` down to `1`, `m_strides[i-1] = m_strides[i] * m_shape[i]`.  The
recursion mirrors that loop: the strides of `a :: b :: rest` are the strides
of `b :: rest` with `strides[1] * shape[1]` prepended. -/
def rowMajorStrides : List Nat → List Nat
  | [] => []
  | [_] => [1]
  | _ :: b :: rest =>
    let tail := rowMajorStrides (b :: rest)
    tail.headD 1 * b :: tail

/-- The strides written by the column-major branch of
`ndarray_base::reshape(shape, layout)`: `m_strides.front() = 1`, then for `i`
from `1` to `n-1`, `m_strides[i] = m_strides[i-1] * m_shape[i-1]`.  The
accumulator carries the running stride value. -/
def colMajorStridesAux (acc : Nat) : List Nat → List Nat
  | [] => []
  | a :: rest => acc :: colMajorStridesAux (acc * a) rest

/-- The geometry state of an `ndarray_base`: the `m_shape` and `m_strides`
members, plus the size of the storage provider's buffer (the only aspect of
the buffer the geometry core touches, via `data().resize(...)`). -/
structure NdState where
  m_shape : List Nat
  m_strides : List Nat
  buf_size : Nat
deriving DecidableEq

/-- A fresh state, as set up by the layout constructors'
`m_shape(0), m_strides(0)` member initializers. -/
def emptyState : NdState := ⟨[], [], 0⟩

/-- `ndarray_base::reshape(const shape_type&, layout)`.  The previous state is
fully overwritten: `m_shape = shape`, `m_strides.resize(n)` followed by writes
to every stride slot, and the buffer resized.  For an empty shape the code
executes `m_strides.back()` (row-major) or `m_strides.front()` (column-major)
on an empty vector — an out-of-range access, modelled as `none`. -/
def reshape_layout (_st : NdState) (shape : List Nat) (l : layout) : Option NdState :=
  match l, shape with
  | layout.row_major, [] => none
  | layout.row_major, a :: rest =>
    let strides := rowMajorStrides (a :: rest)
    some ⟨a :: rest, strides, strides.headD 0 * a⟩
  | layout.column_major, [] => none
  | layout.column_major, a :: rest =>
    let strides := colMajorStridesAux 1 (a :: rest)
    some ⟨a :: rest, strides, strides.getLastD 0 * (a :: rest).getLastD 0⟩

/-- `ndarray_base::reshape(const shape_type&, const strides_type&)`: stores
both arguments unchanged and resizes the buffer to `data_size(m_shape)`. -/
def reshape_strides (_st : NdState) (shape strides : List Nat) : NdState :=
  ⟨shape, strides, data_size shape⟩

/-- `ndarray_base::ndarray_base(const shape_type&, layout)`: initializes the
members empty, then calls `reshape(shape, l)`.  (The variant taking a fill
value has the same geometry effect.) -/
def ctor_layout (shape : List Nat) (l : layout) : Option NdState :=
  reshape_layout emptyState shape l

/-- `ndarray_base::ndarray_base(const shape_type&, const strides_type&)`:
stores both arguments unchanged and resizes the buffer to
`data_size(m_shape)`.  (The variant taking a fill value has the same geometry
effect.) -/
def ctor_strides (shape strides : List Nat) : NdState :=
  ⟨shape, strides, data_size shape⟩

/-- The mutable `ndarray_base::operator()(Args...)`: computes
`data_offset(m_strides, args...)` and indexes the buffer there.  The model
returns the linear buffer position of the returned reference. -/
def op_call (st : NdState) (args : List Nat) : Nat :=
  data_offset st.m_strides args

/-- The const `ndarray_base::operator()(Args...) const`: same computation as
the mutable overload. -/
def op_call_const (st : NdState) (args : List Nat) : Nat :=
  data_offset st.m_strides args

/-- Modelled from the spec: the per-dimension merge rule of broadcasting — the
result dimension is `a` if `a == b`, `b` if `a == 1`, `a` if `b == 1`, and a
failure otherwise. -/
def broadcastDim (a b : Nat) : Option Nat :=
  if a = b then some a
  else if a = 1 then some b
  else if b = 1 then some a
  else none

/-- Modelled from the spec: merge two rank-aligned shapes dimension by
dimension, failing as soon as a pair is incompatible.  (After the leading
padding both lists have equal length, so the catch-all case is unreachable in
use.) -/
def broadcastAligned : List Nat → List Nat → Option (List Nat)
  | a :: as1, b :: bs =>
    match broadcastDim a b, broadcastAligned as1 bs with
    | some c, some cs => some (c :: cs)
    | _, _ => none
  | _, _ => some []

/-- Modelled from the spec: pad a shape on its leading (outermost) side with
size-1 dimensions up to rank `n`. -/
def padTo (n : Nat) (s : List Nat) : List Nat :=
  List.replicate (n - s.length) 1 ++ s

/-- Modelled from the spec: the free function `ndarray::broadcast_shape`
declared in `ndbroadcast.hpp`, which is not among the sources.  Per the spec:
pad the shorter shape on its leading side with size-1 dimensions until both
have rank `max(rank a, rank b)`, then merge dimension pairs from outermost to
innermost; `none` signals the boolean failure result. -/
def broadcast_shape (inp cand : List Nat) : Option (List Nat) :=
  broadcastAligned (padTo (max inp.length cand.length) inp)
    (padTo (max inp.length cand.length) cand)

/-- The const member `ndarray_base::broadcast_shape(shape_type&)`: calls the
free function on `m_shape` and the candidate.  The C++ member returns a bool
and delivers the merged shape by overwriting the by-reference candidate; the
model returns (bool result, candidate after the call, object state after the
call).  On failure the free function's output is not guaranteed meaningful;
the model leaves the candidate unchanged in that case. -/
def broadcast_shape_op (st : NdState) (cand : List Nat) : Bool × List Nat × NdState :=
  match broadcast_shape st.m_shape cand with
  | some r => (true, r, st)
  | none => (false, cand, st)

/-- The canonical strides `reshape(shape, l)` computes for a given layout
directive. -/
def layoutStrides (s : List Nat) (l : layout) : List Nat :=
  match l with
  | layout.row_major => rowMajorStrides s
  | layout.column_major => colMajorStridesAux 1 s

/-- The stride vectors observed at the start and the end of the round trip
`construct (s, row_major); reshape (s, column_major); reshape (s, row_major)`,
with `none` if any step performs an out-of-range access. -/
def roundtrip_strides (s : List Nat) : Option (List Nat × List Nat) :=
  (ctor_layout s layout.row_major).bind fun st1 =>
    (reshape_layout st1 s layout.column_major).bind fun st2 =>
      (reshape_layout st2 s layout.row_major).map fun st3 =>
        (st1.m_strides, st3.m_strides)

/-! ### Basic facts about the stride computations -/

/-- Unfolding lemma: the head of the row-major strides of `a :: t` is the
product of `t`, matching `strides[0] = Π shape[1..]`. -/
theorem rowMajorStrides_cons (a : Nat) (t : List Nat) :
    rowMajorStrides (a :: t) = t.prod :: rowMajorStrides t := by
  induction t generalizing a with
  | nil => simp [rowMajorStrides]
  | cons b rest ih =>
    show (rowMajorStrides (b :: rest)).headD 1 * b :: rowMajorStrides (b :: rest)
        = (b :: rest).prod :: rowMajorStrides (b :: rest)
    rw [ih b]
    simp [Nat.mul_comm]

theorem rowMajorStrides_length (s : List Nat) :
    (rowMajorStrides s).length = s.length := by
  induction s with
  | nil => rfl
  | cons a t ih => rw [rowMajorStrides_cons]; simp [ih]

/-- Closed form of the row-major strides: `strides[i] = Π shape[i+1..]`. -/
theorem rowMajorStrides_getD (s : List Nat) :
    ∀ i, i < s.length → (rowMajorStrides s).getD i 0 = (s.drop (i + 1)).prod := by
  induction s with
  | nil => intro i hi; simp at hi
  | cons a t ih =>
    intro i hi
    rw [rowMajorStrides_cons]
    cases i with
    | zero => simp
    | succ j =>
      rw [List.getD_cons_succ, List.drop_succ_cons]
      exact ih j (by simpa using hi)

/-- Peeling one element off a dropped suffix of a product. -/
theorem drop_prod_step (s : List Nat) :
    ∀ i, i < s.length → (s.drop i).prod = s.getD i 0 * (s.drop (i + 1)).prod := by
  induction s with
  | nil => intro i hi; simp at hi
  | cons a t ih =>
    intro i hi
    cases i with
    | zero => simp
    | succ j =>
      rw [List.drop_succ_cons, List.drop_succ_cons, List.getD_cons_succ]
      exact ih j (by simpa using hi)

theorem colMajorStridesAux_length (acc : Nat) (s : List Nat) :
    (colMajorStridesAux acc s).length = s.length := by
  induction s generalizing acc with
  | nil => rfl
  | cons a t ih => simp [colMajorStridesAux, ih]

/-- Closed form of the column-major strides:
`strides[i] = acc * Π shape[..i-1]`. -/
theorem colMajorStridesAux_getD (s : List Nat) :
    ∀ acc i, i < s.length →
      (colMajorStridesAux acc s).getD i 0 = acc * (s.take i).prod := by
  induction s with
  | nil => intro acc i hi; simp at hi
  | cons a t ih =>
    intro acc i hi
    cases i with
    | zero => simp [colMajorStridesAux]
    | succ j =>
      show (colMajorStridesAux (acc * a) t).getD j 0
          = acc * ((a :: t).take (j + 1)).prod
      rw [ih (acc * a) j (by simpa using hi), List.take_succ_cons, List.prod_cons]
      ring

/-- Appending one element to a taken prefix of a product. -/
theorem take_prod_step (s : List Nat) :
    ∀ j, j < s.length → (s.take (j + 1)).prod = (s.take j).prod * s.getD j 0 := by
  induction s with
  | nil => intro j hj; simp at hj
  | cons a t ih =>
    intro j hj
    cases j with
    | zero => simp
    | succ i =>
      rw [List.take_succ_cons, List.take_succ_cons, List.prod_cons, List.prod_cons,
        List.getD_cons_succ, ih i (by simpa using hj)]
      ring

theorem getLastD_eq_getD (l : List Nat) :
    ∀ d, l ≠ [] → l.getLastD d = l.getD (l.length - 1) 0 := by
  induction l with
  | nil => intro d h; exact absurd rfl h
  | cons a t ih =>
    intro d _
    cases t with
    | nil => rfl
    | cons b u =>
      rw [List.getLastD_cons, ih a (by simp)]
      show (b :: u).getD ((b :: u).length - 1) 0
          = (a :: b :: u).getD ((a :: b :: u).length - 1) 0
      simp [List.getD_cons_succ]

/-- The row-major buffer-size expression `strides.front() * shape.front()`
equals the shape product. -/
theorem rowMajor_buf (a : Nat) (t : List Nat) :
    (rowMajorStrides (a :: t)).headD 0 * a = (a :: t).prod := by
  rw [rowMajorStrides_cons]
  simp [Nat.mul_comm]

/-- The column-major buffer-size expression `strides.back() * shape.back()`
equals the shape product. -/
theorem colMajor_buf (a : Nat) (t : List Nat) :
    (colMajorStridesAux 1 (a :: t)).getLastD 0 * (a :: t).getLastD 0
      = (a :: t).prod := by
  have hne : (a :: t) ≠ ([] : List Nat) := by simp
  have hlen : (colMajorStridesAux 1 (a :: t)).length = (a :: t).length :=
    colMajorStridesAux_length 1 (a :: t)
  have hne2 : colMajorStridesAux 1 (a :: t) ≠ [] := by
    intro h
    rw [h] at hlen
    simp at hlen
  have hlt : (a :: t).length - 1 < (a :: t).length := by simp
  rw [getLastD_eq_getD _ 0 hne2, getLastD_eq_getD _ 0 hne, hlen,
    colMajorStridesAux_getD _ 1 _ hlt, Nat.one_mul,
    ← take_prod_step _ _ hlt]
  have : (a :: t).length - 1 + 1 = (a :: t).length := by simp
  rw [this, List.take_length]

/-- `reshape(shape, l)` on a non-empty shape succeeds, stores the shape and
the canonical strides, and sizes the buffer to the shape product. -/
theorem reshape_layout_eq (st : NdState) (a : Nat) (t : List Nat) (l : layout) :
    reshape_layout st (a :: t) l
      = some ⟨a :: t, layoutStrides (a :: t) l, (a :: t).prod⟩ := by
  cases l with
  | row_major =>
    simp only [reshape_layout, layoutStrides, rowMajor_buf]
  | column_major =>
    simp only [reshape_layout, layoutStrides, colMajor_buf]

/-! ### The offset computation -/

theorem data_offset_nil (strides : List Nat) : data_offset strides [] = 0 := rfl

theorem data_offset_cons (s0 : Nat) (sts : List Nat) (i : Nat) (ix : List Nat) :
    data_offset (s0 :: sts) (i :: ix) = i * s0 + data_offset sts ix := by
  simp [data_offset]

/-- `data_offset` is the dot product `Σ indices[k] * strides[k]`. -/
theorem data_offset_eq_sum (strides ix : List Nat) (h : ix.length = strides.length) :
    data_offset strides ix
      = ∑ k ∈ Finset.range ix.length, ix.getD k 0 * strides.getD k 0 := by
  induction ix generalizing strides with
  | nil => simp [data_offset]
  | cons i ix' ih =>
    cases strides with
    | nil => simp at h
    | cons s0 sts =>
      rw [data_offset_cons, List.length_cons, Finset.sum_range_succ']
      simp only [List.getD_cons_succ, List.getD_cons_zero]
      rw [ih sts (by simpa using h)]
      ring

/-! ### Row-major offsets are a bijection onto the dense range -/

/-- Row-major offsets of in-bounds index tuples stay below the shape
product. -/
theorem rowOffset_lt (s ix : List Nat) (h : List.Forall₂ (· < ·) ix s) :
    data_offset (rowMajorStrides s) ix < s.prod := by
  induction h with
  | nil => simp [data_offset, rowMajorStrides]
  | @cons i b ix' t hib _ ih =>
    rw [rowMajorStrides_cons, data_offset_cons, List.prod_cons]
    calc i * t.prod + data_offset (rowMajorStrides t) ix'
        < i * t.prod + t.prod := Nat.add_lt_add_left ih _
      _ = (i + 1) * t.prod := by rw [Nat.succ_mul]
      _ ≤ b * t.prod := Nat.mul_le_mul (Nat.succ_le_of_lt hib) (Nat.le_refl _)

/-- Uniqueness of the big-endian digit decomposition `i * P + r`. -/
theorem mulAdd_parts (P i r1 : Nat) (h1 : r1 < P) : (i * P + r1) / P = i := by
  have hP : 0 < P := Nat.lt_of_le_of_lt (Nat.zero_le r1) h1
  rw [Nat.mul_comm, Nat.mul_add_div hP, Nat.div_eq_of_lt h1, Nat.add_zero]

theorem mulAdd_inj (P i j r1 r2 : Nat) (h1 : r1 < P) (h2 : r2 < P)
    (he : i * P + r1 = j * P + r2) : i = j ∧ r1 = r2 := by
  have hij : i = j := by
    rw [← mulAdd_parts P i r1 h1, ← mulAdd_parts P j r2 h2, he]
  subst hij
  exact ⟨rfl, Nat.add_left_cancel he⟩

/-- Distinct in-bounds index tuples have distinct row-major offsets. -/
theorem rowOffset_inj : ∀ (s ix jx : List Nat),
    List.Forall₂ (· < ·) ix s → List.Forall₂ (· < ·) jx s →
    data_offset (rowMajorStrides s) ix = data_offset (rowMajorStrides s) jx →
    ix = jx := by
  intro s
  induction s with
  | nil =>
    intro ix jx hi hj _
    cases hi; cases hj; rfl
  | cons b t ih =>
    intro ix jx hi hj he
    cases hi with
    | @cons i _ ix' _ hib hit =>
      cases hj with
      | @cons j _ jx' _ hjb hjt =>
        rw [rowMajorStrides_cons, data_offset_cons, data_offset_cons] at he
        obtain ⟨hij, hr⟩ := mulAdd_inj t.prod i j _ _
          (rowOffset_lt t ix' hit) (rowOffset_lt t jx' hjt) he
        rw [hij, ih ix' jx' hit hjt hr]

/-- Every position below the shape product is the row-major offset of some
in-bounds index tuple. -/
theorem rowOffset_surj : ∀ (s : List Nat), (∀ x ∈ s, 0 < x) →
    ∀ m, m < s.prod →
    ∃ ix, List.Forall₂ (· < ·) ix s ∧ data_offset (rowMajorStrides s) ix = m := by
  intro s
  induction s with
  | nil =>
    intro _ m hm
    refine ⟨[], List.Forall₂.nil, ?_⟩
    rw [List.prod_nil] at hm
    rw [data_offset_nil]
    omega
  | cons b t ih =>
    intro hpos m hm
    have hP : 0 < t.prod := List.prod_pos fun x hx => hpos x (List.mem_cons_of_mem b hx)
    obtain ⟨ix, hix, hoff⟩ :=
      ih (fun x hx => hpos x (List.mem_cons_of_mem b hx)) (m % t.prod) (Nat.mod_lt m hP)
    refine ⟨m / t.prod :: ix, List.Forall₂.cons ?_ hix, ?_⟩
    · rw [List.prod_cons, Nat.mul_comm] at hm
      exact Nat.div_lt_of_lt_mul hm
    · rw [rowMajorStrides_cons, data_offset_cons, hoff,
        Nat.mul_comm (m / t.prod) t.prod]
      exact Nat.div_add_mod m t.prod

/-! ### Column-major offsets are a bijection onto the dense range -/

theorem colAux_cons (acc a : Nat) (t : List Nat) :
    colMajorStridesAux acc (a :: t) = acc :: colMajorStridesAux (acc * a) t := rfl

/-- The accumulator scales every column-major offset linearly. -/
theorem data_offset_colAux_scale : ∀ (t ix : List Nat) (acc : Nat),
    data_offset (colMajorStridesAux acc t) ix
      = acc * data_offset (colMajorStridesAux 1 t) ix := by
  intro t
  induction t with
  | nil => intro ix acc; cases ix <;> simp [data_offset, colMajorStridesAux]
  | cons a u ih =>
    intro ix acc
    cases ix with
    | nil => simp [data_offset]
    | cons i ix' =>
      rw [colAux_cons, colAux_cons, data_offset_cons, data_offset_cons,
        ih ix' (acc * a), ih ix' (1 * a)]
      ring

/-- Column-major offsets of in-bounds index tuples stay below the shape
product. -/
theorem colOffset_lt (s ix : List Nat) (h : List.Forall₂ (· < ·) ix s) :
    data_offset (colMajorStridesAux 1 s) ix < s.prod := by
  induction h with
  | nil => simp [data_offset, colMajorStridesAux]
  | @cons i b ix' t hib _ ih =>
    rw [colAux_cons, data_offset_cons, data_offset_colAux_scale, List.prod_cons]
    simp only [Nat.mul_one, Nat.one_mul]
    calc i + b * data_offset (colMajorStridesAux 1 t) ix'
        < b + b * data_offset (colMajorStridesAux 1 t) ix' :=
          Nat.add_lt_add_right hib _
      _ = b * (data_offset (colMajorStridesAux 1 t) ix' + 1) := by
          rw [Nat.mul_succ, Nat.add_comm]
      _ ≤ b * t.prod := Nat.mul_le_mul (Nat.le_refl _) (Nat.succ_le_of_lt ih)

/-- Uniqueness of the little-endian digit decomposition `i + b * x`. -/
theorem addMul_inj (b i j x y : Nat) (h1 : i < b) (h2 : j < b)
    (he : i + b * x = j + b * y) : i = j ∧ x = y := by
  have hb : 0 < b := Nat.lt_of_le_of_lt (Nat.zero_le i) h1
  have hm1 : (i + b * x) % b = i := by
    rw [Nat.add_mul_mod_self_left, Nat.mod_eq_of_lt h1]
  have hm2 : (j + b * y) % b = j := by
    rw [Nat.add_mul_mod_self_left, Nat.mod_eq_of_lt h2]
  have hij : i = j := by rw [← hm1, ← hm2, he]
  subst hij
  exact ⟨rfl, Nat.eq_of_mul_eq_mul_left hb (Nat.add_left_cancel he)⟩

/-- Distinct in-bounds index tuples have distinct column-major offsets. -/
theorem colOffset_inj : ∀ (s ix jx : List Nat),
    List.Forall₂ (· < ·) ix s → List.Forall₂ (· < ·) jx s →
    data_offset (colMajorStridesAux 1 s) ix
      = data_offset (colMajorStridesAux 1 s) jx →
    ix = jx := by
  intro s
  induction s with
  | nil =>
    intro ix jx hi hj _
    cases hi; cases hj; rfl
  | cons b t ih =>
    intro ix jx hi hj he
    cases hi with
    | @cons i _ ix' _ hib hit =>
      cases hj with
      | @cons j _ jx' _ hjb hjt =>
        rw [colAux_cons, data_offset_cons, data_offset_cons,
          data_offset_colAux_scale t ix', data_offset_colAux_scale t jx'] at he
        simp only [Nat.mul_one, Nat.one_mul] at he
        obtain ⟨hij, hr⟩ := addMul_inj b i j _ _ hib hjb he
        rw [hij, ih ix' jx' hit hjt hr]

/-- Every position below the shape product is the column-major offset of some
in-bounds index tuple. -/
theorem colOffset_surj : ∀ (s : List Nat), (∀ x ∈ s, 0 < x) →
    ∀ m, m < s.prod →
    ∃ ix, List.Forall₂ (· < ·) ix s ∧
      data_offset (colMajorStridesAux 1 s) ix = m := by
  intro s
  induction s with
  | nil =>
    intro _ m hm
    refine ⟨[], List.Forall₂.nil, ?_⟩
    rw [List.prod_nil] at hm
    rw [data_offset_nil]
    omega
  | cons b t ih =>
    intro hpos m hm
    have hb : 0 < b := hpos b (List.mem_cons_self b t)
    rw [List.prod_cons] at hm
    obtain ⟨ix, hix, hoff⟩ :=
      ih (fun x hx => hpos x (List.mem_cons_of_mem b hx)) (m / b)
        (Nat.div_lt_of_lt_mul hm)
    refine ⟨m % b :: ix, List.Forall₂.cons (Nat.mod_lt m hb) hix, ?_⟩
    rw [colAux_cons, data_offset_cons, data_offset_colAux_scale, hoff]
    simp only [Nat.mul_one, Nat.one_mul]
    exact Nat.mod_add_div m b

/-! ### Broadcasting -/

theorem padTo_length (n : Nat) (s : List Nat) (h : s.length ≤ n) :
    (padTo n s).length = n := by
  simp only [padTo, List.length_append, List.length_replicate]
  omega

theorem broadcastDim_eq_none (a b : Nat) :
    broadcastDim a b = none ↔ a ≠ b ∧ a ≠ 1 ∧ b ≠ 1 := by
  unfold broadcastDim
  split_ifs <;> simp_all

theorem broadcastAligned_cons (a b : Nat) (as1 bs : List Nat) :
    broadcastAligned (a :: as1) (b :: bs)
      = match broadcastDim a b, broadcastAligned as1 bs with
        | some c, some cs => some (c :: cs)
        | _, _ => none := rfl

/-- On success, the aligned merge has the common length and every entry is
the per-dimension merge of the corresponding pair. -/
theorem broadcastAligned_some : ∀ (xs ys res : List Nat), xs.length = ys.length →
    broadcastAligned xs ys = some res →
    res.length = xs.length ∧
    ∀ k, k < xs.length →
      broadcastDim (xs.getD k 0) (ys.getD k 0) = some (res.getD k 0) := by
  intro xs
  induction xs with
  | nil =>
    intro ys res hlen h
    cases ys with
    | nil =>
      have hres : res = [] := (Option.some.inj h).symm
      subst hres
      exact ⟨rfl, fun k hk => absurd hk (by simp)⟩
    | cons b bs => simp at hlen
  | cons a as1 ih =>
    intro ys res hlen h
    cases ys with
    | nil => simp at hlen
    | cons b bs =>
      rw [broadcastAligned_cons] at h
      cases hd : broadcastDim a b with
      | none => rw [hd] at h; exact absurd h (by simp)
      | some c =>
        rw [hd] at h
        cases hrec : broadcastAligned as1 bs with
        | none => rw [hrec] at h; exact absurd h (by simp)
        | some cs =>
          rw [hrec] at h
          have hres : res = c :: cs := (Option.some.inj h).symm
          subst hres
          obtain ⟨hl, hk⟩ := ih bs cs (by simpa using hlen) hrec
          refine ⟨by simp [hl], ?_⟩
          intro k hkk
          cases k with
          | zero => simpa using hd
          | succ j =>
            simp only [List.getD_cons_succ]
            exact hk j (by simpa using hkk)

/-- The aligned merge fails exactly when some aligned pair fails the
per-dimension rule. -/
theorem broadcastAligned_none : ∀ (xs ys : List Nat), xs.length = ys.length →
    (broadcastAligned xs ys = none ↔
      ∃ k, k < xs.length ∧ broadcastDim (xs.getD k 0) (ys.getD k 0) = none) := by
  intro xs
  induction xs with
  | nil =>
    intro ys hlen
    cases ys with
    | nil => simp [broadcastAligned]
    | cons b bs => simp at hlen
  | cons a as1 ih =>
    intro ys hlen
    cases ys with
    | nil => simp at hlen
    | cons b bs =>
      rw [broadcastAligned_cons]
      cases hd : broadcastDim a b with
      | none =>
        simp only [List.length_cons]
        constructor
        · intro _
          exact ⟨0, Nat.succ_pos _, by simpa using hd⟩
        · intro _
          trivial
      | some c =>
        cases hrec : broadcastAligned as1 bs with
        | none =>
          simp only [List.length_cons]
          constructor
          · intro _
            obtain ⟨k, hk, hfail⟩ := (ih bs (by simpa using hlen)).mp hrec
            exact ⟨k + 1, by omega, by simpa using hfail⟩
          · intro _; trivial
        | some cs =>
          simp only [List.length_cons]
          constructor
          · intro h; exact absurd h (by simp)
          · rintro ⟨k, hk, hfail⟩
            cases k with
            | zero =>
              rw [List.getD_cons_zero, List.getD_cons_zero] at hfail
              rw [hd] at hfail
              exact absurd hfail (by simp)
            | succ j =>
              rw [List.getD_cons_succ, List.getD_cons_succ] at hfail
              have : broadcastAligned as1 bs = none :=
                (ih bs (by simpa using hlen)).mpr ⟨j, by omega, hfail⟩
              rw [hrec] at this
              exact absurd this (by simp)

theorem layoutStrides_length (s : List Nat) (l : layout) :
    (layoutStrides s l).length = s.length := by
  cases l
  · exact rowMajorStrides_length s
  · exact colMajorStridesAux_length 1 s

/-! ### The claims -/

/-- C1: for every non-empty shape `s` of rank `n`, `reshape(s, row_major)`
succeeds, the computed strides satisfy `strides[n-1] = 1` and
`strides[i] = strides[i+1] * s[i+1]` for all `i < n-1`, and the backing
buffer is resized to the product of all entries of `s`; a shape containing a
0 dimension yields buffer size 0 while the operation still succeeds. -/
theorem reshape_row_major_spec (st : NdState) (s : List Nat) (h : s ≠ []) :
    reshape_layout st s layout.row_major
      = some ⟨s, rowMajorStrides s, s.prod⟩ ∧
    (rowMajorStrides s).length = s.length ∧
    (rowMajorStrides s).getD (s.length - 1) 0 = 1 ∧
    (∀ i, i + 1 < s.length →
      (rowMajorStrides s).getD i 0
        = (rowMajorStrides s).getD (i + 1) 0 * s.getD (i + 1) 0) ∧
    (0 ∈ s → s.prod = 0) := by
  obtain ⟨a, t, rfl⟩ := List.exists_cons_of_ne_nil h
  refine ⟨reshape_layout_eq st a t layout.row_major, rowMajorStrides_length _,
    ?_, ?_, fun h0 => List.prod_eq_zero h0⟩
  · have hlt : (a :: t).length - 1 < (a :: t).length := by simp
    rw [rowMajorStrides_getD _ _ hlt]
    have hn : (a :: t).length - 1 + 1 = (a :: t).length := by simp
    rw [hn, List.drop_length, List.prod_nil]
  · intro i hi
    rw [rowMajorStrides_getD _ i (by omega), rowMajorStrides_getD _ (i + 1) hi,
      drop_prod_step _ (i + 1) hi]
    ring

/-- Witness for C1 at shape `[2, 3]`. -/
theorem reshape_row_major_spec_witness :
    reshape_layout emptyState [2, 3] layout.row_major
      = some ⟨[2, 3], rowMajorStrides [2, 3], ([2, 3] : List Nat).prod⟩ ∧
    (rowMajorStrides [2, 3]).getD 0 0
      = (rowMajorStrides [2, 3]).getD 1 0 * ([2, 3] : List Nat).getD 1 0 :=
  ⟨(reshape_row_major_spec emptyState [2, 3] (by decide)).1,
   (reshape_row_major_spec emptyState [2, 3] (by decide)).2.2.2.1 0 (by decide)⟩

/-- C4: for every non-empty shape `s` of rank `n`, `reshape(s, column_major)`
succeeds, the computed strides satisfy `strides[0] = 1` and
`strides[i] = strides[i-1] * s[i-1]` for `1 ≤ i < n`, and the backing buffer
is resized to `strides[n-1] * s[n-1]`, which equals the product of all
entries of `s`. -/
theorem reshape_column_major_spec (st : NdState) (s : List Nat) (h : s ≠ []) :
    reshape_layout st s layout.column_major
      = some ⟨s, colMajorStridesAux 1 s, s.prod⟩ ∧
    (colMajorStridesAux 1 s).length = s.length ∧
    (colMajorStridesAux 1 s).getD 0 0 = 1 ∧
    (∀ i, 1 ≤ i → i < s.length →
      (colMajorStridesAux 1 s).getD i 0
        = (colMajorStridesAux 1 s).getD (i - 1) 0 * s.getD (i - 1) 0) ∧
    (colMajorStridesAux 1 s).getD (s.length - 1) 0 * s.getD (s.length - 1) 0
      = s.prod := by
  obtain ⟨a, t, rfl⟩ := List.exists_cons_of_ne_nil h
  have hpos : 0 < (a :: t).length := by simp
  refine ⟨reshape_layout_eq st a t layout.column_major,
    colMajorStridesAux_length 1 _, ?_, ?_, ?_⟩
  · rw [colMajorStridesAux_getD _ 1 0 hpos]
    simp
  · intro i h1 h2
    obtain ⟨j, rfl⟩ : ∃ j, i = j + 1 := ⟨i - 1, by omega⟩
    have hj : j < (a :: t).length := by omega
    rw [colMajorStridesAux_getD _ 1 (j + 1) h2, Nat.add_sub_cancel,
      colMajorStridesAux_getD _ 1 j hj, take_prod_step _ j hj]
    ring
  · have hlt : (a :: t).length - 1 < (a :: t).length := by simp
    rw [colMajorStridesAux_getD _ 1 _ hlt, Nat.one_mul,
      ← take_prod_step _ _ hlt]
    have hn : (a :: t).length - 1 + 1 = (a :: t).length := by simp
    rw [hn, List.take_length]

/-- Witness for C4 at shape `[2, 3]`. -/
theorem reshape_column_major_spec_witness :
    reshape_layout emptyState [2, 3] layout.column_major
      = some ⟨[2, 3], colMajorStridesAux 1 [2, 3], ([2, 3] : List Nat).prod⟩ ∧
    (colMajorStridesAux 1 [2, 3]).getD 1 0
      = (colMajorStridesAux 1 [2, 3]).getD 0 0 * ([2, 3] : List Nat).getD 0 0 :=
  ⟨(reshape_column_major_spec emptyState [2, 3] (by decide)).1,
   (reshape_column_major_spec emptyState [2, 3] (by decide)).2.2.2.1 1
     (by decide) (by decide)⟩

/-- C2: both element-access operators index the buffer at the linear position
`Σ indices[k] * strides[k]`, given rank-many indices on a state whose strides
match its rank. -/
theorem element_access_offset (st : NdState) (ix : List Nat)
    (hrank : ix.length = st.m_shape.length)
    (hwf : st.m_strides.length = st.m_shape.length) :
    op_call st ix
        = ∑ k ∈ Finset.range ix.length, ix.getD k 0 * st.m_strides.getD k 0 ∧
    op_call_const st ix
        = ∑ k ∈ Finset.range ix.length, ix.getD k 0 * st.m_strides.getD k 0 := by
  have h : ix.length = st.m_strides.length := by rw [hrank, hwf]
  exact ⟨data_offset_eq_sum _ _ h, data_offset_eq_sum _ _ h⟩

/-- Witness for C2 on a 2×3 row-major state at index (1, 2). -/
theorem element_access_offset_witness :
    op_call ⟨[2, 3], [3, 1], 6⟩ [1, 2]
        = ∑ k ∈ Finset.range 2,
            ([1, 2] : List Nat).getD k 0 * ([3, 1] : List Nat).getD k 0 ∧
    op_call_const ⟨[2, 3], [3, 1], 6⟩ [1, 2]
        = ∑ k ∈ Finset.range 2,
            ([1, 2] : List Nat).getD k 0 * ([3, 1] : List Nat).getD k 0 :=
  element_access_offset ⟨[2, 3], [3, 1], 6⟩ [1, 2] (by decide) (by decide)

/-- C6: on the empty (rank-0) shape the row-major reshape executes
`m_strides.back()` and `m_shape.front()` on empty vectors — an out-of-range
access, modelled as `none` — instead of succeeding with buffer size 1. -/
theorem reshape_rank0_row_major (st : NdState) :
    reshape_layout st [] layout.row_major = none := rfl

/-- C5: for every non-empty shape with all entries positive and either layout
directive, the offset over the canonical strides computed by reshape is a
bijection from the in-bounds index tuples onto the buffer positions
`0 .. product(s) - 1`. -/
theorem offset_bijection (st : NdState) (s : List Nat) (l : layout)
    (hpos : ∀ x ∈ s, 0 < x) (hne : s ≠ []) :
    reshape_layout st s l = some ⟨s, layoutStrides s l, s.prod⟩ ∧
    (∀ ix, List.Forall₂ (· < ·) ix s →
      data_offset (layoutStrides s l) ix < s.prod) ∧
    (∀ ix jx, List.Forall₂ (· < ·) ix s → List.Forall₂ (· < ·) jx s →
      data_offset (layoutStrides s l) ix = data_offset (layoutStrides s l) jx →
      ix = jx) ∧
    (∀ m, m < s.prod → ∃ ix, List.Forall₂ (· < ·) ix s ∧
      data_offset (layoutStrides s l) ix = m) := by
  obtain ⟨a, t, rfl⟩ := List.exists_cons_of_ne_nil hne
  refine ⟨reshape_layout_eq st a t l, ?_, ?_, ?_⟩
  · cases l
    · exact fun ix hix => rowOffset_lt _ ix hix
    · exact fun ix hix => colOffset_lt _ ix hix
  · cases l
    · exact fun ix jx => rowOffset_inj _ ix jx
    · exact fun ix jx => colOffset_inj _ ix jx
  · cases l
    · exact fun m hm => rowOffset_surj _ hpos m hm
    · exact fun m hm => colOffset_surj _ hpos m hm

/-- Witness for C5: at shape `[2, 3]`, row-major, the offset of (1, 2) stays
below the buffer size. -/
theorem offset_bijection_witness :
    data_offset (layoutStrides [2, 3] layout.row_major) [1, 2]
      < ([2, 3] : List Nat).prod :=
  (offset_bijection emptyState [2, 3] layout.row_major (by decide)
      (by decide)).2.1 [1, 2]
    (List.Forall₂.cons (by decide) (List.Forall₂.cons (by decide) List.Forall₂.nil))

/-- C9: constructing with `(s, row_major)`, reshaping to `(s, column_major)`
and back to `(s, row_major)` restores exactly the original stride vector:
both endpoints of the round trip carry the canonical row-major strides. -/
theorem reshape_roundtrip (s : List Nat) (h : s ≠ []) :
    roundtrip_strides s = some (rowMajorStrides s, rowMajorStrides s) := by
  obtain ⟨a, t, rfl⟩ := List.exists_cons_of_ne_nil h
  simp [roundtrip_strides, ctor_layout, reshape_layout_eq, layoutStrides]

/-- Witness for C9 at shape `[2, 3]`. -/
theorem reshape_roundtrip_witness :
    roundtrip_strides [2, 3] = some ([3, 1], [3, 1]) :=
  reshape_roundtrip [2, 3] (by decide)

/-- C7 (amended): after reshape by layout (and the layout constructors) the
stored strides vector has the same length as the stored shape; after reshape
with explicit strides (and the explicit-strides constructors) the lengths are
equal exactly when the caller supplies a strides vector of the same length as
the shape — the code stores both unchanged without validating them. -/
theorem strides_shape_length (st : NdState) (s strides : List Nat) (l : layout) :
    (∀ r, reshape_layout st s l = some r →
      r.m_strides.length = r.m_shape.length) ∧
    ((reshape_strides st s strides).m_strides.length
        = (reshape_strides st s strides).m_shape.length
      ↔ strides.length = s.length) ∧
    (∀ r, ctor_layout s l = some r →
      r.m_strides.length = r.m_shape.length) ∧
    ((ctor_strides s strides).m_strides.length
        = (ctor_strides s strides).m_shape.length
      ↔ strides.length = s.length) := by
  have hlayout : ∀ (st0 : NdState) r, reshape_layout st0 s l = some r →
      r.m_strides.length = r.m_shape.length := by
    intro st0 r hr
    cases s with
    | nil => cases l <;> simp [reshape_layout] at hr
    | cons a t =>
      rw [reshape_layout_eq] at hr
      have := Option.some.inj hr
      rw [← this]
      exact layoutStrides_length (a :: t) l
  exact ⟨hlayout st, Iff.rfl, hlayout emptyState, Iff.rfl⟩

/-- C7 counterexample: `reshape(shape, strides)` with a strides vector of a
different length than the shape stores both unchanged, so the stored lengths
differ — the unconditional length invariant fails. -/
theorem strides_shape_length_cex :
    ¬ ((reshape_strides emptyState [2] [1, 1]).m_strides.length
        = (reshape_strides emptyState [2] [1, 1]).m_shape.length) := by decide

/-- Witness for C7 (amended) after a row-major reshape to `[2, 3]`. -/
theorem strides_shape_length_witness :
    (NdState.mk [2, 3] [3, 1] 6).m_strides.length
      = (NdState.mk [2, 3] [3, 1] 6).m_shape.length :=
  (strides_shape_length emptyState [2, 3] [3, 1] layout.row_major).1
    ⟨[2, 3], [3, 1], 6⟩ (by decide)

/-- C8: reshape with explicit strides and the explicit-strides constructor
store the given shape and strides unchanged and resize the buffer to
`product(newShape)`; the buffer size never depends on the supplied
strides. -/
theorem explicit_strides_spec (st : NdState) (s strides strides2 : List Nat) :
    reshape_strides st s strides = ⟨s, strides, s.prod⟩ ∧
    ctor_strides s strides = ⟨s, strides, s.prod⟩ ∧
    (reshape_strides st s strides).buf_size
      = (reshape_strides st s strides2).buf_size ∧
    (ctor_strides s strides).buf_size = (ctor_strides s strides2).buf_size :=
  ⟨rfl, rfl, rfl, rfl⟩

/-- C3: `broadcast_shape` pads the shorter shape on its leading side with
size-1 dimensions, merges each aligned dimension pair by the broadcasting
rule, produces a result of rank `max(rank inp, rank cand)` on success, and
fails exactly when some aligned pair has two different sizes neither of which
is 1; `[3,1,5]` against `[4,5]` gives `[3,4,5]`, and `[2,3]` against `[2,4]`
fails. -/
theorem broadcast_shape_correct (inp cand : List Nat) :
    (∀ res, broadcast_shape inp cand = some res →
      res.length = max inp.length cand.length ∧
      ∀ k, k < max inp.length cand.length →
        broadcastDim ((padTo (max inp.length cand.length) inp).getD k 0)
            ((padTo (max inp.length cand.length) cand).getD k 0)
          = some (res.getD k 0)) ∧
    (broadcast_shape inp cand = none ↔
      ∃ k, k < max inp.length cand.length ∧
        (padTo (max inp.length cand.length) inp).getD k 0
          ≠ (padTo (max inp.length cand.length) cand).getD k 0 ∧
        (padTo (max inp.length cand.length) inp).getD k 0 ≠ 1 ∧
        (padTo (max inp.length cand.length) cand).getD k 0 ≠ 1) ∧
    broadcast_shape [3, 1, 5] [4, 5] = some [3, 4, 5] ∧
    broadcast_shape [2, 3] [2, 4] = none := by
  have hl1 : (padTo (max inp.length cand.length) inp).length
      = max inp.length cand.length :=
    padTo_length _ _ (Nat.le_max_left _ _)
  have hl2 : (padTo (max inp.length cand.length) cand).length
      = max inp.length cand.length :=
    padTo_length _ _ (Nat.le_max_right _ _)
  refine ⟨?_, ?_, by decide, by decide⟩
  · intro res hres
    obtain ⟨hlen, hk⟩ := broadcastAligned_some _ _ res (by rw [hl1, hl2]) hres
    rw [hl1] at hlen hk
    exact ⟨hlen, hk⟩
  · rw [show broadcast_shape inp cand
        = broadcastAligned (padTo (max inp.length cand.length) inp)
            (padTo (max inp.length cand.length) cand) from rfl,
      broadcastAligned_none _ _ (by rw [hl1, hl2]), hl1]
    constructor
    · rintro ⟨k, hk, hfail⟩
      rw [broadcastDim_eq_none] at hfail
      exact ⟨k, hk, hfail⟩
    · rintro ⟨k, hk, hfail⟩
      rw [← broadcastDim_eq_none] at hfail
      exact ⟨k, hk, hfail⟩

/-- Witness for C3 at `[3,1,5]` vs `[4,5]`: the merged rank and the middle
merged dimension. -/
theorem broadcast_shape_correct_witness :
    ([3, 4, 5] : List Nat).length
      = max ([3, 1, 5] : List Nat).length ([4, 5] : List Nat).length ∧
    broadcastDim ((padTo 3 [3, 1, 5]).getD 1 0) ((padTo 3 [4, 5]).getD 1 0)
      = some (([3, 4, 5] : List Nat).getD 1 0) :=
  ⟨((broadcast_shape_correct [3, 1, 5] [4, 5]).1 [3, 4, 5] (by decide)).1,
   ((broadcast_shape_correct [3, 1, 5] [4, 5]).1 [3, 4, 5] (by decide)).2 1
     (by decide)⟩

/-- C10: the const member `broadcast_shape` leaves the array's own shape,
strides and buffer unchanged whether it succeeds or fails; the merged shape
is delivered through the by-reference candidate slot of the result, and the
boolean result signals success. -/
theorem broadcast_shape_frame (st : NdState) (cand : List Nat) :
    (broadcast_shape_op st cand).2.2 = st ∧
    ((broadcast_shape_op st cand).1 = true
      ↔ (broadcast_shape st.m_shape cand).isSome) ∧
    (∀ r, broadcast_shape st.m_shape cand = some r →
      (broadcast_shape_op st cand).2.1 = r) := by
  unfold broadcast_shape_op
  cases h : broadcast_shape st.m_shape cand with
  | none => simp
  | some r => simp

/-- Witness for C10: broadcasting `[2, 3]` against candidate `[3]` leaves the
state intact and writes `[2, 3]` into the candidate slot. -/
theorem broadcast_shape_frame_witness :
    (broadcast_shape_op ⟨[2, 3], [3, 1], 6⟩ [3]).2.2
      = (⟨[2, 3], [3, 1], 6⟩ : NdState) ∧
    (broadcast_shape_op ⟨[2, 3], [3, 1], 6⟩ [3]).2.1 = [2, 3] :=
  ⟨(broadcast_shape_frame ⟨[2, 3], [3, 1], 6⟩ [3]).1,
   (broadcast_shape_frame ⟨[2, 3], [3, 1], 6⟩ [3]).2.2 [2, 3] (by decide)⟩

end Ndarray
